import Mathlib

/-!
Verification of the MKL spectral-ops core (aten/src/ATen/native/mkl/SpectralOps.cpp).

Part 1 embeds the conjugate-symmetry fill routine
`_fft_fill_with_conjugate_symmetry_slice` and its CPU driver.  A complex value
is a pair of integers (the embedding is parametric in the scalar payload, and
exact integer components let every statement be decided on concrete inputs).
Buffers are functions from element offsets to values; the slice routine is
embedded as the list of (output-offset, input-offset) pairs it writes, in
program order, with the semantics that each pair (o, i) performs
out[o] = conj(in[i]).  Machine `int64_t` index arithmetic never overflows in
the reachable states, so offsets are plain `Int` and non-negative counters are
`Nat` (the C++ `%` and `/` on the non-negative operands agree with the `Nat`
operations used here).

Part 2 embeds the `_fft_mkl` transform configurator as a function from a
transform request to the ordered list of engine (DFTI descriptor) calls it
would issue plus an outcome, with floating-point scale factors represented
symbolically by the exact expression the code computes.
-/

/-- Complex scalar with exact integer components, standing in for
`std::complex` with its real/imaginary parts. -/
structure Cplx where
  re : Int
  im : Int
deriving DecidableEq, Repr

/-- Complex conjugation, `std::conj`. -/
def Cplx.conj (z : Cplx) : Cplx := ⟨z.re, -z.im⟩

/-- The `advance_index` lambda of `_fft_fill_with_conjugate_symmetry_slice`:
carry-increment of the iteration index over the dimensions above dimension 0,
updating the input and output pointer offsets.  The four lists are the tails
(dimensions 1 and up) of `is_mirrored_dim`, `signal_half_sizes`, `in_strides`
and `out_strides`; the C++ loop over `i = 1 .. ndim-1` becomes structural
recursion down these lists. -/
def advance_index : List Bool → List Nat → List Int → List Int →
    List Nat → Int → Int → List Nat × Int × Int
  | m :: ms, s :: ss, a :: inS, b :: outS, j :: js, inOff, outOff =>
    if j + 1 < s then
      ((j + 1) :: js,
       inOff + a,
       outOff + (if m then (if j + 1 = 1 then ((s : Int) - 1) * b else -b) else b))
    else
      let r := advance_index ms ss inS outS js (inOff - a * (j : Int))
        (outOff - (if m then b else b * (j : Int)))
      (0 :: r.1, r.2.1, r.2.2)
  | _, _, _, _, js, inOff, outOff => (js, inOff, outOff)

/-- The slice-start reconstruction of `_fft_fill_with_conjugate_symmetry_slice`
(the `range.begin > 0` block without its dimension-0 part): repeated
division/modulo of the linear row index against the half sizes of dimensions
1 and up, summing the per-dimension input/output offset contributions with the
mirrored-vs-unmirrored direction rule.  Returns the iteration index tail and
the two pointer offsets. -/
def init_index : List Bool → List Nat → List Int → List Int → Nat →
    List Nat × Int × Int
  | m :: ms, s :: ss, a :: inS, b :: outS, linear =>
    if linear = 0 then (List.replicate (ms.length + 1) 0, 0, 0)
    else
      let j := linear % s
      let r := init_index ms ss inS outS (linear / s)
      (j :: r.1,
       r.2.1 + (if 0 < j then a * (j : Int) else 0),
       r.2.2 + (if 0 < j then (if m then b * ((s : Int) - (j : Int)) else b * (j : Int)) else 0))
  | _, _, _, _, _ => ([], 0, 0)

/-- The `while (numel_remaining > 0)` loop of the mirrored-dimension-0 branch
of `_fft_fill_with_conjugate_symmetry_slice`.  One iteration writes
`out_ptr[0]` and then `out_ptr[(s0 - i) * b0]` for `i = 1 .. e-1` with
`e = min s0 rem`, then advances the outer index.  The extra `fuel` argument
makes the recursion structural; it is always called with `fuel = rem`, which
suffices because every iteration with `0 < s0` consumes at least one element. -/
def loop_mirrored (s0 : Nat) (a0 b0 : Int) (ms : List Bool) (ss : List Nat)
    (inS outS : List Int) : Nat → Nat → List Nat → Int → Int → List (Int × Int)
  | 0, _, _, _, _ => []
  | fuel + 1, rem, js, inOff, outOff =>
    if rem = 0 then []
    else
      let e := min s0 rem
      let row := (outOff, inOff) ::
        (List.range' 1 (e - 1)).map
          (fun (i : Nat) => (outOff + ((s0 : Int) - (i : Int)) * b0, inOff + (i : Int) * a0))
      let st := advance_index ms ss inS outS js inOff outOff
      row ++ loop_mirrored s0 a0 b0 ms ss inS outS fuel (rem - e) st.1 st.2.1 st.2.2

/-- The `while (numel_remaining > 0)` loop of the non-mirrored-dimension-0
branch of `_fft_fill_with_conjugate_symmetry_slice`: a strided conjugated copy
of each row from index `i0` (nonzero only for the first row of a slice that
starts mid-row) to `e = min s0 (i0 + rem)`. -/
def loop_plain (s0 : Nat) (a0 b0 : Int) (ms : List Bool) (ss : List Nat)
    (inS outS : List Int) : Nat → Nat → Nat → List Nat → Int → Int → List (Int × Int)
  | 0, _, _, _, _, _ => []
  | fuel + 1, rem, i0, js, inOff, outOff =>
    if rem = 0 then []
    else
      let e := min s0 (i0 + rem)
      let row := (List.range' i0 (e - i0)).map
        (fun (i : Nat) => (outOff + (i : Int) * b0, inOff + (i : Int) * a0))
      let st := advance_index ms ss inS outS js inOff outOff
      row ++ loop_plain s0 a0 b0 ms ss inS outS fuel (rem - (e - i0)) 0 st.1 st.2.1 st.2.2

/-- Embedding of `_fft_fill_with_conjugate_symmetry_slice` over the range
`[b, e)` of the linear half index space: the ordered list of
(output-offset, input-offset) pairs written, where pair `(o, i)` stands for
`out_ptr[o] = std::conj(in_ptr[i])`.  Dimension 0 is the innermost, explicitly
looped dimension; the remaining dimensions are traversed by `advance_index`.
A slice starting mid-range first reconstructs its index and pointer offsets
(`init_index`), and a mirrored dimension 0 runs the partial first row before
entering the main loop, exactly as the C++ does. -/
def fft_fill_with_conjugate_symmetry_slice (b e : Nat) (mirrored : List Bool)
    (sizes : List Nat) (inS outS : List Int) : List (Int × Int) :=
  match mirrored, sizes, inS, outS with
  | m0 :: ms, s0 :: ss, a0 :: inS0, b0 :: outS0 =>
    let st := if 0 < b then (b % s0, init_index ms ss inS0 outS0 (b / s0))
              else (0, (List.replicate ms.length 0, 0, 0))
    let i0 := st.1
    let js := st.2.1
    let inOff := st.2.2.1
    let outOff := st.2.2.2
    let rem := e - b
    if m0 then
      if 0 < i0 then
        let ee := min s0 (i0 + rem)
        let row := (List.range' i0 (ee - i0)).map (fun (i : Nat) =>
          (outOff + ((s0 : Int) - (i : Int)) * b0, inOff + (i : Int) * a0))
        let st1 := advance_index ms ss inS0 outS0 js inOff outOff
        row ++ loop_mirrored s0 a0 b0 ms ss inS0 outS0
          (rem - (ee - i0)) (rem - (ee - i0)) st1.1 st1.2.1 st1.2.2
      else
        loop_mirrored s0 a0 b0 ms ss inS0 outS0 rem rem js inOff outOff
    else
      loop_plain s0 a0 b0 ms ss inS0 outS0 rem rem i0 js inOff outOff
  | _, _, _, _ => []

/-- A single buffer store `out[o] = v`. -/
def updOut (f : Int → Cplx) (o : Int) (v : Cplx) : Int → Cplx :=
  fun x => if x = o then v else f x

/-- Applies a write list produced by the slice routine to an output buffer:
each pair `(o, i)` stores the conjugate of the input element at offset `i`
into the output at offset `o`, in program order. -/
def applyWrites (inBuf : Int → Cplx) (ws : List (Int × Int)) (outBuf : Int → Cplx) :
    Int → Cplx :=
  ws.foldl (fun f w => updOut f w.1 (Cplx.conj (inBuf w.2))) outBuf

/-- One slice call per contiguous partition piece, in order: models
`at::parallel_for` in `_fft_fill_with_conjugate_symmetry_cpu_` handing the
sub-ranges of `[0, numel)` to `_fft_fill_with_conjugate_symmetry_slice`.
`parts` lists the lengths of the consecutive sub-ranges. -/
def runPartition (inBuf : Int → Cplx) (mirrored : List Bool) (sizes : List Nat)
    (inS outS : List Int) : List Nat → Nat → (Int → Cplx) → Int → Cplx
  | [], _, buf => buf
  | p :: ps, start, buf =>
      runPartition inBuf mirrored sizes inS outS ps (start + p)
        (applyWrites inBuf
          (fft_fill_with_conjugate_symmetry_slice start (start + p) mirrored sizes inS outS)
          buf)

/-- Mixed-radix digits of a linear index against the half sizes, least
significant (dimension 0) first: the pure "unravel index" the slice-start
reconstruction computes. -/
def unravel : List Nat → Nat → List Nat
  | [], _ => []
  | s :: ss, k => (k % s) :: unravel ss (k / s)

/-- Flat input offset of a coordinate: the dot product of strides and
coordinates. -/
def in_offset : List Int → List Nat → Int
  | a :: inS, c :: cs => a * (c : Int) + in_offset inS cs
  | _, _ => 0

/-- Output coordinate of one dimension: a mirrored dimension reflects a
nonzero coordinate `c` to `size - c` and fixes coordinate 0; an unmirrored
dimension is the identity. -/
def mirror_coord (m : Bool) (s : Nat) (c : Nat) : Int :=
  if m ∧ 0 < c then (s : Int) - (c : Int) else (c : Int)

/-- Flat output offset of a coordinate: dot product of the output strides with
the per-dimension mirrored coordinates. -/
def out_offset : List Bool → List Nat → List Int → List Nat → Int
  | m :: ms, s :: ss, b :: outS, c :: cs =>
      b * mirror_coord m s c + out_offset ms ss outS cs
  | _, _, _, _ => 0

/-- The single write the fill performs for linear half-space index `k`:
output offset of the mirrored coordinate, input offset of the coordinate
itself (the stored value being the conjugate of the input element there). -/
def write_for (mirrored : List Bool) (sizes : List Nat) (inS outS : List Int)
    (k : Nat) : Int × Int :=
  (out_offset mirrored sizes outS (unravel sizes k),
   in_offset inS (unravel sizes k))

/-- Modelled from the spec: the 1-D driver that expands a half spectrum into
the full spectrum is in `_fft_fill_with_conjugate_symmetry_` (outside this
file's source); per the spec's invariant, the full buffer keeps the half
values in place and each missing index `j ≥ half-length` receives the
conjugate of the half value at its mirror `n - j`, DC and the self-mirrored
Nyquist boundary having no distinct mirror. -/
def expand_half_spectrum_1d (n : Nat) (half : List Cplx) : List Cplx :=
  (List.range n).map (fun j =>
    if j < half.length then half.getD j ⟨0, 0⟩
    else Cplx.conj (half.getD (n - j) ⟨0, 0⟩))

/-!
Part 2: the `_fft_mkl` transform configurator.

Tensor extents and strides are non-negative (`Nat`); `input.stride(i) >> 1`
on those non-negative values is `Nat` division by 2.  `MKL_LONG_MAX` is the
`maxL` parameter and the `sizeof(MKL_LONG) < sizeof(int64_t)` platform test is
the `narrow` flag.  All engine (DFTI) interactions are recorded as an ordered
call list; the floating-point scale value is kept as the exact expression the
code computes, tagged with the precision it is cast to.
-/

/-- Element type tag of the input tensor; only single and double floating
precision are supported by the configurator. -/
inductive ScalarType
  | float
  | double
  | other
deriving DecidableEq, Repr

/-- Engine precision, `DFTI_SINGLE` / `DFTI_DOUBLE`. -/
inductive Prec
  | single
  | double
deriving DecidableEq, Repr

/-- Engine forward domain, `DFTI_REAL` / `DFTI_COMPLEX`. -/
inductive SigType
  | real
  | complex
deriving DecidableEq, Repr

/-- Modelled from the spec: the normalization mode enum (`fft_norm_mode`,
declared in a header outside this file's source) with the three modes the
spec names: none, by root-N, by N. -/
inductive NormMode
  | none
  | by_root_n
  | by_n
deriving DecidableEq, Repr

/-- The scale factor the code computes, kept symbolic and exact:
`invSqrt n` is `1.0 / sqrt(n)` and `invN n` is `1.0 / n`. -/
inductive ScaleExpr
  | invSqrt (n : Nat)
  | invN (n : Nat)
deriving DecidableEq, Repr

/-- The fatal errors `_fft_mkl` can raise before touching the engine. -/
inductive MklError
  | unsupportedType
  | sizeExceeded
deriving DecidableEq, Repr

/-- One recorded interaction with the native FFT engine: descriptor creation
followed by `DftiSetValue`/commit/compute calls, in program order. -/
inductive EngineCall
  | descInit (prec : Prec) (signal : SigType) (ndim : Nat) (sizes : List Nat)
  | setPlacementNotInplace
  | setNumberOfTransforms (batch : Nat)
  | setInputDistance (d : Nat)
  | setOutputDistance (d : Nat)
  | setInputStrides (s : List Nat)
  | setOutputStrides (s : List Nat)
  | setConjugateEvenStorage
  | setForwardScale (prec : Prec) (v : ScaleExpr)
  | setBackwardScale (prec : Prec) (v : ScaleExpr)
  | commitDescriptor
  | computeForward
  | computeBackward
deriving DecidableEq, Repr

/-- The arguments of one `_fft_mkl` call together with the size/stride
metadata of the input tensor. -/
structure FftArgs where
  input_sizes : List Nat
  input_strides : List Nat
  scalar_type : ScalarType
  signal_ndim : Nat
  complex_input : Bool
  complex_output : Bool
  inverse : Bool
  checked_signal_sizes : List Nat
  normalization : NormMode
  onesided : Bool
  output_sizes : List Nat
deriving Repr

/-- Row-major contiguous strides of a tensor with the given sizes: what
`Tensor::contiguous` and `at::empty` produce. -/
def contiguous_strides : List Nat → List Nat
  | [] => []
  | _ :: rest => rest.prod :: contiguous_strides rest

/-- The complex-alignment test of `_fft_mkl`: the `need_contiguous` loop that
copies a complex input whose last-dimension stride is not 1 or whose stride in
any dimension `0 .. signal_ndim` (batch dimension included) is odd.  The
short-circuiting C++ loop is folded into the accumulated Boolean. -/
def mkl_need_contiguous (signal_ndim : Nat) (strides : List Nat) : Bool :=
  (List.range (signal_ndim + 1)).foldl
    (fun acc i => acc || decide (strides.getD i 0 % 2 ≠ 0))
    (decide (strides.getLastD 0 ≠ 1))

/-- The input strides `_fft_mkl` works with after its complex-alignment step:
the original strides, or contiguous strides when the alignment copy fires. -/
def fft_mkl_input_strides (t : FftArgs) : List Nat :=
  if t.complex_input && mkl_need_contiguous t.signal_ndim t.input_strides then
    contiguous_strides t.input_sizes
  else t.input_strides

/-- One iteration of the overflow-preflight loop of `_fft_mkl` at dimension
`i`: checks the extent, the output extent and the running output stride
against `maxL`, marks the contiguous-copy rescue when the input stride
overruns, re-checks the accumulated input element count under the rescue, and
returns the updated (rescue flag, input numel, output numel) state. -/
def preflight_dim (maxL : Nat) (complex_input : Bool)
    (isz istr osz : List Nat) (i : Nat) (need_contiguous : Bool)
    (inumel onumel : Nat) : Except MklError (Bool × Nat × Nat) :=
  let isize := isz.getD i 0
  let osize := osz.getD i 0
  let istride := if complex_input then istr.getD i 0 / 2 else istr.getD i 0
  let ostride := onumel
  if isize ≤ maxL ∧ osize ≤ maxL ∧ ostride ≤ maxL then
    let need2 := need_contiguous || decide (maxL < istride)
    if need2 = false ∨ inumel ≤ maxL then
      Except.ok (need2, inumel * isize, onumel * osize)
    else Except.error MklError.sizeExceeded
  else Except.error MklError.sizeExceeded

/-- The overflow-preflight loop of `_fft_mkl`, walking dimensions
`signal_ndim` down to `0`; returns the final contiguous-copy rescue flag
(which the surrounding code then discards). -/
def preflight_loop (maxL : Nat) (ci : Bool) (isz istr osz : List Nat) :
    Nat → Bool → Nat → Nat → Except MklError Bool
  | 0, nc, inu, onu =>
    match preflight_dim maxL ci isz istr osz 0 nc inu onu with
    | Except.error er => Except.error er
    | Except.ok st => Except.ok st.1
  | i + 1, nc, inu, onu =>
    match preflight_dim maxL ci isz istr osz (i + 1) nc inu onu with
    | Except.error er => Except.error er
    | Except.ok st => preflight_loop maxL ci isz istr osz i st.1 st.2.1 st.2.2

/-- The whole overflow preflight of `_fft_mkl` (the
`sizeof(MKL_LONG) < sizeof(int64_t)` block). -/
def mkl_preflight (maxL : Nat) (ci : Bool) (signal_ndim : Nat)
    (isz istr osz : List Nat) : Except MklError Bool :=
  preflight_loop maxL ci isz istr osz signal_ndim false 1 1

/-- Precision selection of `_fft_mkl`: single or double, anything else is the
unsupported-type error. -/
def mkl_prec : ScalarType → Except MklError Prec
  | ScalarType.float => Except.ok Prec.single
  | ScalarType.double => Except.ok Prec.double
  | ScalarType.other => Except.error MklError.unsupportedType

/-- What a successful `_fft_mkl` run fixed before executing: whether the
complex-alignment copy was performed, the per-dimension strides handed to the
engine, and the dimensions the conjugate-symmetry fill is invoked on
afterwards (none when no fill happens). -/
structure MklPlan where
  did_layout_copy : Bool
  mkl_istrides : List Nat
  mkl_ostrides : List Nat
  fill_dims : Option (List Nat)
deriving DecidableEq, Repr

/-- Result of an `_fft_mkl` run: the ordered engine-call trace and either an
error or the plan summary.  Errors are raised before any engine call, so an
erroneous run has an empty trace. -/
structure MklOutcome where
  calls : List EngineCall
  result : Except MklError MklPlan
deriving Repr

/-- Embedding of `_fft_mkl`: complex-alignment copy, overflow preflight (only
on a narrow-index engine), output allocation, precision and domain selection,
descriptor configuration (placement, batch count, distances, strides,
conjugate-even storage, normalization scale), commit, directional execute,
and the conjugate-symmetry fill for a full real-to-complex spectrum. -/
def fft_mkl (narrow : Bool) (maxL : Nat) (t : FftArgs) : MklOutcome :=
  let batch := t.input_sizes.getD 0 0
  let istrides := fft_mkl_input_strides t
  match (if narrow then
           mkl_preflight maxL t.complex_input t.signal_ndim t.input_sizes istrides t.output_sizes
         else Except.ok false) with
  | Except.error er => { calls := [], result := Except.error er }
  | Except.ok _ =>
    let ostrides := contiguous_strides t.output_sizes
    match mkl_prec t.scalar_type with
    | Except.error er => { calls := [], result := Except.error er }
    | Except.ok prec =>
      let signal_type :=
        if t.inverse = false then
          (if t.complex_input then SigType.complex else SigType.real)
        else
          (if t.complex_output then SigType.complex else SigType.real)
      let idist := if t.complex_input then istrides.getD 0 0 / 2 else istrides.getD 0 0
      let odist := if t.complex_output then ostrides.getD 0 0 / 2 else ostrides.getD 0 0
      let mkl_istrides := 0 :: (List.range' 1 t.signal_ndim).map
        (fun i => if t.complex_input then istrides.getD i 0 / 2 else istrides.getD i 0)
      let mkl_ostrides := 0 :: (List.range' 1 t.signal_ndim).map
        (fun i => if t.complex_output then ostrides.getD i 0 / 2 else ostrides.getD i 0)
      let signal_numel := t.checked_signal_sizes.prod
      let scale_calls : List EngineCall :=
        match t.normalization with
        | NormMode.none => []
        | NormMode.by_root_n =>
          [(if t.inverse then EngineCall.setBackwardScale else EngineCall.setForwardScale)
             prec (ScaleExpr.invSqrt signal_numel)]
        | NormMode.by_n =>
          [(if t.inverse then EngineCall.setBackwardScale else EngineCall.setForwardScale)
             prec (ScaleExpr.invN signal_numel)]
      let calls :=
        [EngineCall.descInit prec signal_type t.signal_ndim t.checked_signal_sizes,
         EngineCall.setPlacementNotInplace,
         EngineCall.setNumberOfTransforms batch,
         EngineCall.setInputDistance idist,
         EngineCall.setOutputDistance odist,
         EngineCall.setInputStrides mkl_istrides,
         EngineCall.setOutputStrides mkl_ostrides]
        ++ (if t.complex_input = false || t.complex_output = false then
              [EngineCall.setConjugateEvenStorage] else [])
        ++ scale_calls
        ++ [EngineCall.commitDescriptor,
            if t.inverse = false then EngineCall.computeForward else EngineCall.computeBackward]
      let fill :=
        if t.complex_input = false ∧ t.complex_output = true ∧ t.onesided = false then
          some (List.range' 1 t.signal_ndim)
        else none
      { calls := calls,
        result := Except.ok
          { did_layout_copy := t.complex_input && mkl_need_contiguous t.signal_ndim t.input_strides,
            mkl_istrides := mkl_istrides,
            mkl_ostrides := mkl_ostrides,
            fill_dims := fill } }


/-- Recognises the two scale-setting engine calls. -/
def is_scale_call : EngineCall → Bool
  | EngineCall.setForwardScale _ _ => true
  | EngineCall.setBackwardScale _ _ => true
  | _ => false

/-- Concrete input buffer used by the concrete-input theorems: the element at
offset `o` has real part `o` and imaginary part 1. -/
def exIn : Int → Cplx := fun o => ⟨o, 1⟩

/-- Concrete output buffer used by the concrete-input theorems, filled with a
sentinel value. -/
def exOut : Int → Cplx := fun _ => ⟨9, 9⟩

/-- A real-to-complex forward request on a narrow engine whose non-contiguous
input stride (128) exceeds the synthetic limit 100 while every accumulated
element count stays within it. -/
def c3Args : FftArgs :=
  { input_sizes := [1, 4], input_strides := [512, 128],
    scalar_type := ScalarType.float, signal_ndim := 1,
    complex_input := false, complex_output := true, inverse := false,
    checked_signal_sizes := [4], normalization := NormMode.none,
    onesided := true, output_sizes := [1, 3, 2] }

/-- A request with an unsupported element type and a dimension extent (101)
beyond the synthetic narrow-engine limit 100. -/
def c6badArgs : FftArgs :=
  { input_sizes := [1, 101], input_strides := [101, 1],
    scalar_type := ScalarType.other, signal_ndim := 1,
    complex_input := false, complex_output := true, inverse := false,
    checked_signal_sizes := [101], normalization := NormMode.none,
    onesided := true, output_sizes := [1, 101] }

/-- An inverse request with root-N normalization. -/
def c7Args : FftArgs :=
  { input_sizes := [1, 4], input_strides := [512, 128],
    scalar_type := ScalarType.float, signal_ndim := 1,
    complex_input := false, complex_output := true, inverse := true,
    checked_signal_sizes := [4], normalization := NormMode.by_root_n,
    onesided := true, output_sizes := [1, 3, 2] }

/-- A real-to-complex request asking for the full (non-onesided) spectrum. -/
def c8Args : FftArgs :=
  { input_sizes := [1, 4], input_strides := [512, 128],
    scalar_type := ScalarType.float, signal_ndim := 1,
    complex_input := false, complex_output := true, inverse := false,
    checked_signal_sizes := [4], normalization := NormMode.none,
    onesided := false, output_sizes := [1, 3, 2] }


/-!
Part 3: correctness development for the fill routine.

The central result (`fill_slice_eq`) characterises the write list of
`fft_fill_with_conjugate_symmetry_slice` over `[b, e)` as the pure per-index
function `write_for` mapped over that range, provided every mirrored dimension
other than dimension 0 has extent at least 2.  The extent-1 proviso is
necessary: the rollover branch of `advance_index` subtracts one output stride
for a mirrored dimension regardless of its extent, which is correct only when
the final coordinate's mirrored contribution is one stride, i.e. when the
extent is at least 2 (for extent 1 the contribution is 0, so the output
pointer drifts by one stride at every carry past that dimension).
-/

theorem mirror_coord_zero (m : Bool) (s : Nat) : mirror_coord m s 0 = 0 := by
  simp [mirror_coord]

theorem mirror_coord_true_pos (s c : Nat) (hc : 0 < c) :
    mirror_coord true s c = (s : Int) - (c : Int) := by
  simp [mirror_coord, hc]

theorem mirror_coord_not_mirrored (s c : Nat) :
    mirror_coord false s c = (c : Int) := by
  simp [mirror_coord]

theorem unravel_zero : ∀ ss : List Nat, unravel ss 0 = List.replicate ss.length 0
  | [] => rfl
  | s :: ss => by simp [unravel, unravel_zero ss, List.replicate_succ]

theorem in_offset_zeros : ∀ (inS : List Int) (cs : List Nat),
    (∀ c ∈ cs, c = 0) → in_offset inS cs = 0
  | [], _, _ => rfl
  | _ :: _, [], _ => rfl
  | a :: inS, c :: cs, h => by
    have hc : c = 0 := h c (List.mem_cons_self c cs)
    have ht : ∀ x ∈ cs, x = 0 := fun x hx => h x (List.mem_cons_of_mem c hx)
    simp [in_offset, hc, in_offset_zeros inS cs ht]

theorem out_offset_zeros : ∀ (ms : List Bool) (ss : List Nat) (outS : List Int)
    (cs : List Nat), (∀ c ∈ cs, c = 0) → out_offset ms ss outS cs = 0
  | [], _, _, _, _ => rfl
  | _ :: _, [], _, _, _ => rfl
  | _ :: _, _ :: _, [], _, _ => rfl
  | _ :: _, _ :: _, _ :: _, [], _ => rfl
  | m :: ms, s :: ss, b :: outS, c :: cs, h => by
    have hc : c = 0 := h c (List.mem_cons_self c cs)
    have ht : ∀ x ∈ cs, x = 0 := fun x hx => h x (List.mem_cons_of_mem c hx)
    simp [out_offset, hc, mirror_coord_zero, out_offset_zeros ms ss outS cs ht]

theorem unravel_cons_of_lt (s : Nat) (ss : List Nat) (r j : Nat) (hs : 0 < s)
    (hj : j < s) : unravel (s :: ss) (s * r + j) = j :: unravel ss r := by
  simp only [unravel, Nat.mul_add_mod, Nat.mul_add_div hs,
    Nat.mod_eq_of_lt hj, Nat.div_eq_of_lt hj, Nat.add_zero]

theorem map_range'_congr {α : Type} (f g : Nat → α) :
    ∀ (n a b : Nat), (∀ i, i < n → f (a + i) = g (b + i)) →
      (List.range' a n).map f = (List.range' b n).map g
  | 0, _, _, _ => rfl
  | n + 1, a, b, h => by
    rw [List.range'_succ, List.range'_succ, List.map_cons, List.map_cons]
    have h0 := h 0 (Nat.succ_pos n)
    simp only [Nat.add_zero] at h0
    rw [h0]
    congr 1
    exact map_range'_congr f g n (a + 1) (b + 1) (fun i hi => by
      have hgen := h (i + 1) (by omega)
      have e1 : a + (i + 1) = a + 1 + i := by omega
      have e2 : b + (i + 1) = b + 1 + i := by omega
      rw [e1, e2] at hgen
      exact hgen)

theorem advance_index_eq :
    ∀ (ss : List Nat) (ms : List Bool) (inS outS : List Int) (r : Nat),
      ms.length = ss.length → inS.length = ss.length → outS.length = ss.length →
      (∀ p ∈ ms.zip ss, p.1 = true → 2 ≤ p.2) →
      r + 1 < ss.prod →
      advance_index ms ss inS outS (unravel ss r)
          (in_offset inS (unravel ss r)) (out_offset ms ss outS (unravel ss r))
        = (unravel ss (r + 1), in_offset inS (unravel ss (r + 1)),
           out_offset ms ss outS (unravel ss (r + 1)))
  | [], ms, inS, outS, r, hm, hi, ho, _, hr => by
    simp at hr
  | s :: ss, [], inS, outS, r, hm, _, _, _, _ => by simp at hm
  | s :: ss, m :: ms, [], outS, r, _, hi, _, _, _ => by simp at hi
  | s :: ss, m :: ms, a :: inS, [], r, _, _, ho, _, _ => by simp at ho
  | s :: ss, m :: ms, a :: inS, b :: outS, r, hm, hi, ho, hmir, hr => by
    have hprod : (s :: ss).prod = s * ss.prod := by simp
    rw [hprod] at hr
    have hs : 0 < s := by
      rcases Nat.eq_zero_or_pos s with h | h
      · subst h; simp at hr
      · exact h
    have hj : r % s < s := Nat.mod_lt _ hs
    have hdm : s * (r / s) + r % s = r := Nat.div_add_mod r s
    have hm' : ms.length = ss.length := by simpa using hm
    have hi' : inS.length = ss.length := by simpa using hi
    have ho' : outS.length = ss.length := by simpa using ho
    have hmir' : ∀ p ∈ ms.zip ss, p.1 = true → 2 ≤ p.2 := by
      intro p hp
      exact hmir p (by simp [List.zip_cons_cons, hp])
    have hur : unravel (s :: ss) r = (r % s) :: unravel ss (r / s) := rfl
    by_cases hlt : r % s + 1 < s
    · -- advance within this dimension
      have h1 : unravel (s :: ss) (r + 1) = (r % s + 1) :: unravel ss (r / s) := by
        have he : r + 1 = s * (r / s) + (r % s + 1) := by omega
        rw [he, unravel_cons_of_lt s ss (r / s) (r % s + 1) hs hlt]
      rw [hur, h1]
      simp only [advance_index, if_pos hlt, Prod.mk.injEq]
      refine ⟨trivial, ?_, ?_⟩
      · simp only [in_offset]; push_cast; ring
      · cases m with
        | false =>
          simp only [out_offset, mirror_coord_not_mirrored, if_neg Bool.false_ne_true]
          push_cast; ring
        | true =>
          by_cases hj0 : r % s = 0
          · rw [hj0]
            simp only [mirror_coord_zero, out_offset, Nat.zero_add, if_pos rfl,
              mirror_coord_true_pos s 1 Nat.one_pos, if_pos trivial]
            push_cast; ring
          · have hj1 : 0 < r % s := Nat.pos_of_ne_zero hj0
            have hne : ¬ (r % s + 1 = 1) := by omega
            simp only [out_offset, mirror_coord_true_pos s (r % s) hj1,
              mirror_coord_true_pos s (r % s + 1) (Nat.succ_pos _), if_neg hne,
              if_pos trivial]
            push_cast; ring
    · -- rollover into the next dimension
      have hje : r % s + 1 = s := by omega
      have hmulsucc : s * (r / s + 1) = s * (r / s) + s := Nat.mul_succ s (r / s)
      have hr1 : r + 1 = s * (r / s + 1) := by omega
      have hRlt : r / s + 1 < ss.prod := by
        rw [hr1] at hr
        exact Nat.lt_of_mul_lt_mul_left hr
      have h1 : unravel (s :: ss) (r + 1) = 0 :: unravel ss (r / s + 1) := by
        rw [hr1, show s * (r / s + 1) = s * (r / s + 1) + 0 from rfl,
          unravel_cons_of_lt s ss (r / s + 1) 0 hs hs]
      have ih := advance_index_eq ss ms inS outS (r / s) hm' hi' ho' hmir' hRlt
      rw [hur, h1]
      simp only [advance_index, if_neg hlt]
      have harg1 : in_offset (a :: inS) ((r % s) :: unravel ss (r / s)) - a * ((r % s : Nat) : Int)
          = in_offset inS (unravel ss (r / s)) := by
        simp only [in_offset]; ring
      have harg2 : out_offset (m :: ms) (s :: ss) (b :: outS) ((r % s) :: unravel ss (r / s))
          - (if m then b else b * ((r % s : Nat) : Int))
          = out_offset ms ss outS (unravel ss (r / s)) := by
        cases m with
        | false =>
          simp only [out_offset, mirror_coord_not_mirrored, if_neg Bool.false_ne_true]
          ring
        | true =>
          have hs2 : 2 ≤ s := hmir (true, s) (by simp [List.zip_cons_cons]) rfl
          have hj1 : 0 < r % s := by omega
          have hone : (s : Int) - ((r % s : Nat) : Int) = 1 := by
            have := hje; push_cast; omega
          simp only [out_offset, mirror_coord_true_pos s (r % s) hj1, if_pos trivial, hone]
          ring
      rw [harg1, harg2, ih]
      simp only [Prod.mk.injEq]
      refine ⟨trivial, ?_, ?_⟩
      · simp only [in_offset]; push_cast; ring
      · simp only [out_offset, mirror_coord_zero]; ring

theorem init_index_eq :
    ∀ (ss : List Nat) (ms : List Bool) (inS outS : List Int) (L : Nat),
      ms.length = ss.length → inS.length = ss.length → outS.length = ss.length →
      init_index ms ss inS outS L
        = (unravel ss L, in_offset inS (unravel ss L),
           out_offset ms ss outS (unravel ss L))
  | [], ms, inS, outS, L, hm, hi, ho => by
    have : ms = [] := List.eq_nil_of_length_eq_zero (by simpa using hm)
    have h2 : inS = [] := List.eq_nil_of_length_eq_zero (by simpa using hi)
    have h3 : outS = [] := List.eq_nil_of_length_eq_zero (by simpa using ho)
    subst this; subst h2; subst h3
    simp [init_index, unravel, in_offset, out_offset]
  | s :: ss, [], inS, outS, L, hm, _, _ => by simp at hm
  | s :: ss, m :: ms, [], outS, L, _, hi, _ => by simp at hi
  | s :: ss, m :: ms, a :: inS, [], L, _, _, ho => by simp at ho
  | s :: ss, m :: ms, a :: inS, b :: outS, L, hm, hi, ho => by
    have hm' : ms.length = ss.length := by simpa using hm
    have hi' : inS.length = ss.length := by simpa using hi
    have ho' : outS.length = ss.length := by simpa using ho
    by_cases hL : L = 0
    · subst hL
      have hz : ∀ c ∈ unravel (s :: ss) 0, c = 0 := by
        rw [unravel_zero]
        intro c hc
        exact List.eq_of_mem_replicate hc
      rw [in_offset_zeros _ _ hz, out_offset_zeros _ _ _ _ hz, unravel_zero]
      simp [init_index, hm']
    · have ih := init_index_eq ss ms inS outS (L / s) hm' hi' ho'
      have hur : unravel (s :: ss) L = (L % s) :: unravel ss (L / s) := rfl
      rw [hur]
      rw [init_index]
      simp only [if_neg hL, ih, Prod.mk.injEq]
      refine ⟨trivial, ?_, ?_⟩
      · by_cases hj : 0 < L % s
        · simp only [in_offset, if_pos hj]; ring
        · have : L % s = 0 := by omega
          rw [this]
          simp only [in_offset, if_neg (by omega : ¬ (0:Nat) < 0)]
          push_cast; ring
      · by_cases hj : 0 < L % s
        · cases m with
          | false =>
            simp only [out_offset, mirror_coord_not_mirrored, if_pos hj,
              if_neg Bool.false_ne_true]
            ring
          | true =>
            simp only [out_offset, mirror_coord_true_pos s (L % s) hj, if_pos hj,
              if_pos trivial]
            ring
        · have : L % s = 0 := by omega
          rw [this]
          simp only [out_offset, mirror_coord_zero, if_neg (by omega : ¬ (0:Nat) < 0)]
          ring

theorem loop_mirrored_zero (s0 : Nat) (a0 b0 : Int) (ms : List Bool) (ss : List Nat)
    (inS outS : List Int) : ∀ (fuel : Nat) (js : List Nat) (i o : Int),
      loop_mirrored s0 a0 b0 ms ss inS outS fuel 0 js i o = []
  | 0, _, _, _ => rfl
  | fuel + 1, _, _, _ => by simp [loop_mirrored]

theorem loop_plain_zero (s0 : Nat) (a0 b0 : Int) (ms : List Bool) (ss : List Nat)
    (inS outS : List Int) : ∀ (fuel i0 : Nat) (js : List Nat) (i o : Int),
      loop_plain s0 a0 b0 ms ss inS outS fuel 0 i0 js i o = []
  | 0, _, _, _, _ => rfl
  | fuel + 1, _, _, _, _ => by simp [loop_plain]

theorem map_row_mirrored (s0 : Nat) (a0 b0 : Int) (ms : List Bool) (ss : List Nat)
    (inS outS : List Int) (r lo n : Nat) (hlo : 0 < lo) (hn : lo + n ≤ s0) :
    (List.range' lo n).map (fun (i : Nat) =>
        (out_offset ms ss outS (unravel ss r) + ((s0 : Int) - (i : Int)) * b0,
         in_offset inS (unravel ss r) + (i : Int) * a0))
      = (List.range' (s0 * r + lo) n).map
          (write_for (true :: ms) (s0 :: ss) (a0 :: inS) (b0 :: outS)) := by
  apply map_range'_congr
  intro i hi
  have hs0 : 0 < s0 := by omega
  have hjj : lo + i < s0 := by omega
  have hjpos : 0 < lo + i := by omega
  have hk : s0 * r + lo + i = s0 * r + (lo + i) := by omega
  rw [hk]
  simp only [write_for, out_offset, in_offset, Nat.mul_add_mod,
    Nat.mod_eq_of_lt hjj, Nat.mul_add_div hs0, Nat.div_eq_of_lt hjj, Nat.add_zero,
    mirror_coord_true_pos s0 (lo + i) hjpos, Prod.mk.injEq]
  refine ⟨by push_cast; ring, by push_cast; ring⟩

theorem map_row_plain (s0 : Nat) (a0 b0 : Int) (ms : List Bool) (ss : List Nat)
    (inS outS : List Int) (r lo n : Nat) (hn : lo + n ≤ s0) :
    (List.range' lo n).map (fun (i : Nat) =>
        (out_offset ms ss outS (unravel ss r) + (i : Int) * b0,
         in_offset inS (unravel ss r) + (i : Int) * a0))
      = (List.range' (s0 * r + lo) n).map
          (write_for (false :: ms) (s0 :: ss) (a0 :: inS) (b0 :: outS)) := by
  apply map_range'_congr
  intro i hi
  have hs0 : 0 < s0 := by omega
  have hjj : lo + i < s0 := by omega
  have hk : s0 * r + lo + i = s0 * r + (lo + i) := by omega
  rw [hk]
  simp only [write_for, out_offset, in_offset, Nat.mul_add_mod,
    Nat.mod_eq_of_lt hjj, Nat.mul_add_div hs0, Nat.div_eq_of_lt hjj, Nat.add_zero,
    mirror_coord_not_mirrored, Prod.mk.injEq]
  refine ⟨by push_cast; ring, by push_cast; ring⟩

theorem loop_mirrored_eq (s0 : Nat) (a0 b0 : Int) (ms : List Bool) (ss : List Nat)
    (inS outS : List Int)
    (hm : ms.length = ss.length) (hi : inS.length = ss.length)
    (ho : outS.length = ss.length) (hs0 : 0 < s0)
    (hmir : ∀ p ∈ ms.zip ss, p.1 = true → 2 ≤ p.2) :
    ∀ (fuel rem r : Nat), rem ≤ fuel → s0 * r + rem ≤ s0 * ss.prod →
      loop_mirrored s0 a0 b0 ms ss inS outS fuel rem (unravel ss r)
          (in_offset inS (unravel ss r)) (out_offset ms ss outS (unravel ss r))
        = (List.range' (s0 * r) rem).map
            (write_for (true :: ms) (s0 :: ss) (a0 :: inS) (b0 :: outS)) := by
  intro fuel
  induction fuel with
  | zero =>
    intro rem r hf hle
    have : rem = 0 := by omega
    subst this
    simp [loop_mirrored]
  | succ fuel IH =>
    intro rem r hf hle
    by_cases hrem : rem = 0
    · subst hrem; simp [loop_mirrored]
    · have hwhead : write_for (true :: ms) (s0 :: ss) (a0 :: inS) (b0 :: outS) (s0 * r)
          = (out_offset ms ss outS (unravel ss r), in_offset inS (unravel ss r)) := by
        simp only [write_for, out_offset, in_offset, Nat.mul_mod_right,
          Nat.mul_div_cancel_left r hs0, mirror_coord_zero, Nat.cast_zero,
          mul_zero, zero_add]
      have he1 : 1 ≤ min s0 rem := by omega
      have heler : min s0 rem ≤ rem := Nat.min_le_right _ _
      have hrow : (out_offset ms ss outS (unravel ss r), in_offset inS (unravel ss r)) ::
            (List.range' 1 (min s0 rem - 1)).map (fun (i : Nat) =>
              (out_offset ms ss outS (unravel ss r) + ((s0 : Int) - (i : Int)) * b0,
               in_offset inS (unravel ss r) + (i : Int) * a0))
          = (List.range' (s0 * r) (min s0 rem)).map
              (write_for (true :: ms) (s0 :: ss) (a0 :: inS) (b0 :: outS)) := by
        obtain ⟨e', he'⟩ : ∃ e', min s0 rem = e' + 1 := ⟨min s0 rem - 1, by omega⟩
        rw [he', List.range'_succ, List.map_cons, hwhead]
        congr 1
        simp only [Nat.add_sub_cancel]
        exact map_row_mirrored s0 a0 b0 ms ss inS outS r 1 e' Nat.one_pos (by omega)
      by_cases hend : rem - min s0 rem = 0
      · have hre : rem = min s0 rem := by omega
        simp only [loop_mirrored, if_neg hrem]
        rw [hend, loop_mirrored_zero, List.append_nil, hrow, ← hre]
      · have hes : min s0 rem = s0 := by
          rcases Nat.le_total rem s0 with h | h
          · omega
          · simp [Nat.min_eq_left h]
        have hmulsucc : s0 * (r + 1) = s0 * r + s0 := Nat.mul_succ _ _
        have hrlt : r + 1 < ss.prod := by
          have hlt : s0 * (r + 1) < s0 * ss.prod := by omega
          exact Nat.lt_of_mul_lt_mul_left hlt
        have hih := IH (rem - min s0 rem) (r + 1) (by omega) (by omega)
        simp only [loop_mirrored, if_neg hrem]
        rw [advance_index_eq ss ms inS outS r hm hi ho hmir hrlt]
        rw [hih, hrow, ← List.map_append]
        congr 1
        rw [hes, hmulsucc]
        have happ := List.range'_append (s0 * r) s0 (rem - s0) 1
        simp only [one_mul] at happ
        rw [happ]
        congr 1
        omega

theorem loop_plain_eq (s0 : Nat) (a0 b0 : Int) (ms : List Bool) (ss : List Nat)
    (inS outS : List Int)
    (hm : ms.length = ss.length) (hi : inS.length = ss.length)
    (ho : outS.length = ss.length) (hs0 : 0 < s0)
    (hmir : ∀ p ∈ ms.zip ss, p.1 = true → 2 ≤ p.2) :
    ∀ (fuel rem i0 r : Nat), rem ≤ fuel → i0 < s0 →
      s0 * r + i0 + rem ≤ s0 * ss.prod →
      loop_plain s0 a0 b0 ms ss inS outS fuel rem i0 (unravel ss r)
          (in_offset inS (unravel ss r)) (out_offset ms ss outS (unravel ss r))
        = (List.range' (s0 * r + i0) rem).map
            (write_for (false :: ms) (s0 :: ss) (a0 :: inS) (b0 :: outS)) := by
  intro fuel
  induction fuel with
  | zero =>
    intro rem i0 r hf hi0 hle
    have : rem = 0 := by omega
    subst this
    simp [loop_plain]
  | succ fuel IH =>
    intro rem i0 r hf hi0 hle
    by_cases hrem : rem = 0
    · subst hrem; simp [loop_plain]
    · have hemin : min s0 (i0 + rem) ≤ i0 + rem := Nat.min_le_right _ _
      have hel : i0 < min s0 (i0 + rem) := by omega
      have hrow : (List.range' i0 (min s0 (i0 + rem) - i0)).map (fun (i : Nat) =>
            (out_offset ms ss outS (unravel ss r) + (i : Int) * b0,
             in_offset inS (unravel ss r) + (i : Int) * a0))
          = (List.range' (s0 * r + i0) (min s0 (i0 + rem) - i0)).map
              (write_for (false :: ms) (s0 :: ss) (a0 :: inS) (b0 :: outS)) :=
        map_row_plain s0 a0 b0 ms ss inS outS r i0 (min s0 (i0 + rem) - i0) (by omega)
      by_cases hend : rem - (min s0 (i0 + rem) - i0) = 0
      · have hre : rem = min s0 (i0 + rem) - i0 := by omega
        simp only [loop_plain, if_neg hrem]
        rw [hend, loop_plain_zero, List.append_nil, hrow, ← hre]
      · have hes : min s0 (i0 + rem) = s0 := by
          rcases Nat.le_total (i0 + rem) s0 with h | h
          · omega
          · simp [Nat.min_eq_left h]
        have hmulsucc : s0 * (r + 1) = s0 * r + s0 := Nat.mul_succ _ _
        have hrlt : r + 1 < ss.prod := by
          have hlt : s0 * (r + 1) < s0 * ss.prod := by omega
          exact Nat.lt_of_mul_lt_mul_left hlt
        have hih := IH (rem - (min s0 (i0 + rem) - i0)) 0 (r + 1) (by omega) hs0
          (by omega)
        simp only [loop_plain, if_neg hrem]
        rw [advance_index_eq ss ms inS outS r hm hi ho hmir hrlt]
        rw [hih, hrow, ← List.map_append]
        congr 1
        rw [hes] at hrow ⊢
        rw [Nat.add_zero, hmulsucc]
        have happ := List.range'_append (s0 * r + i0) (s0 - i0) (rem - (s0 - i0)) 1
        simp only [one_mul] at happ
        rw [show s0 * r + i0 + (s0 - i0) = s0 * r + s0 by omega] at happ
        rw [happ]
        congr 1
        omega

theorem fill_start_eq (ms : List Bool) (ss : List Nat) (inS outS : List Int)
    (s0 q p : Nat) (hs0 : 0 < s0) (hm : ms.length = ss.length)
    (hi : inS.length = ss.length) (ho : outS.length = ss.length) :
    (if 0 < s0 * q + p then (p, init_index ms ss inS outS q)
     else (0, (List.replicate ms.length 0, 0, 0)))
      = (p, unravel ss q, in_offset inS (unravel ss q),
         out_offset ms ss outS (unravel ss q)) := by
  by_cases hb : 0 < s0 * q + p
  · rw [if_pos hb, init_index_eq ss ms inS outS q hm hi ho]
  · have hp : p = 0 := by omega
    have hq : q = 0 := by
      rcases Nat.mul_eq_zero.mp (show s0 * q = 0 by omega) with h | h
      · omega
      · exact h
    subst hp; subst hq
    rw [if_neg hb]
    have hz : ∀ c ∈ unravel ss 0, c = 0 := by
      rw [unravel_zero]
      intro c hc
      exact List.eq_of_mem_replicate hc
    rw [in_offset_zeros _ _ hz, out_offset_zeros _ _ _ _ hz, unravel_zero, hm]

theorem fill_slice_eq (m0 : Bool) (ms : List Bool) (s0 : Nat) (ss : List Nat)
    (a0 : Int) (inS : List Int) (b0 : Int) (outS : List Int) (b e : Nat)
    (hm : ms.length = ss.length) (hi : inS.length = ss.length)
    (ho : outS.length = ss.length) (hs0 : 0 < s0)
    (hmir : ∀ p ∈ ms.zip ss, p.1 = true → 2 ≤ p.2)
    (hbe : b ≤ e) (he : e ≤ s0 * ss.prod) :
    fft_fill_with_conjugate_symmetry_slice b e (m0 :: ms) (s0 :: ss)
        (a0 :: inS) (b0 :: outS)
      = (List.range' b (e - b)).map
          (write_for (m0 :: ms) (s0 :: ss) (a0 :: inS) (b0 :: outS)) := by
  obtain ⟨q, p, rfl, hplt⟩ : ∃ q p, b = s0 * q + p ∧ p < s0 :=
    ⟨b / s0, b % s0, (Nat.div_add_mod b s0).symm, Nat.mod_lt _ hs0⟩
  obtain ⟨E, rfl⟩ : ∃ E, e = s0 * q + p + E :=
    ⟨e - (s0 * q + p), (Nat.add_sub_cancel' hbe).symm⟩
  have hdiv : (s0 * q + p) / s0 = q := by
    rw [Nat.mul_add_div hs0, Nat.div_eq_of_lt hplt, Nat.add_zero]
  have hmod : (s0 * q + p) % s0 = p := by
    rw [Nat.mul_add_mod, Nat.mod_eq_of_lt hplt]
  have hmulsucc : s0 * (q + 1) = s0 * q + s0 := Nat.mul_succ _ _
  simp only [fft_fill_with_conjugate_symmetry_slice, hdiv, hmod,
    Nat.add_sub_cancel_left,
    fill_start_eq ms ss inS outS s0 q p hs0 hm hi ho]
  clear hdiv hmod
  cases m0 with
  | false =>
    rw [if_neg Bool.false_ne_true]
    exact loop_plain_eq s0 a0 b0 ms ss inS outS hm hi ho hs0 hmir
      E E p q (Nat.le_refl _) hplt (by omega)
  | true =>
    rw [if_pos rfl]
    by_cases hi0 : 0 < p
    · rw [if_pos hi0]
      rcases Nat.le_total s0 (p + E) with hc | hc
      · rw [min_eq_left hc]
        by_cases hend : E - (s0 - p) = 0
        · have hrow := map_row_mirrored s0 a0 b0 ms ss inS outS q p (s0 - p)
            hi0 (by omega)
          rw [hend, loop_mirrored_zero, List.append_nil,
            show E = s0 - p by omega]
          exact hrow
        · have hrlt : q + 1 < ss.prod := by
            have hlt : s0 * (q + 1) < s0 * ss.prod := by
              rw [hmulsucc]; omega
            exact Nat.lt_of_mul_lt_mul_left hlt
          rw [advance_index_eq ss ms inS outS q hm hi ho hmir hrlt]
          have hloop := loop_mirrored_eq s0 a0 b0 ms ss inS outS hm hi ho hs0 hmir
            (E - (s0 - p)) (E - (s0 - p)) (q + 1) (Nat.le_refl _)
            (by rw [hmulsucc]; omega)
          rw [hloop]
          have hrow := map_row_mirrored s0 a0 b0 ms ss inS outS q p (s0 - p)
            hi0 (by omega)
          rw [hrow, ← List.map_append]
          congr 1
          rw [hmulsucc]
          have happ := List.range'_append (s0 * q + p) (s0 - p) (E - (s0 - p)) 1
          simp only [one_mul] at happ
          rw [show s0 * q + p + (s0 - p) = s0 * q + s0 by omega] at happ
          rw [happ]
          congr 1
          omega
      · rw [min_eq_right hc, show p + E - p = E by omega, Nat.sub_self,
          loop_mirrored_zero, List.append_nil]
        exact map_row_mirrored s0 a0 b0 ms ss inS outS q p E hi0 hc
    · rw [if_neg hi0]
      have hp0 : p = 0 := by omega
      subst hp0
      have h := loop_mirrored_eq s0 a0 b0 ms ss inS outS hm hi ho hs0 hmir
        E E q (Nat.le_refl _) (by omega)
      simp only [Nat.add_zero] at h ⊢
      rw [h]

theorem loop_mirrored_length (s0 : Nat) (a0 b0 : Int) (ms : List Bool)
    (ss : List Nat) (inS outS : List Int) (hs0 : 0 < s0) :
    ∀ (fuel rem : Nat) (js : List Nat) (i o : Int), rem ≤ fuel →
      (loop_mirrored s0 a0 b0 ms ss inS outS fuel rem js i o).length = rem := by
  intro fuel
  induction fuel with
  | zero =>
    intro rem js i o hf
    have : rem = 0 := by omega
    subst this; rfl
  | succ fuel IH =>
    intro rem js i o hf
    by_cases hrem : rem = 0
    · subst hrem; simp [loop_mirrored]
    · simp only [loop_mirrored, if_neg hrem, List.length_append, List.length_cons,
        List.length_map, List.length_range']
      rw [IH (rem - min s0 rem) _ _ _ (by omega)]
      omega

theorem loop_plain_length (s0 : Nat) (a0 b0 : Int) (ms : List Bool)
    (ss : List Nat) (inS outS : List Int) (hs0 : 0 < s0) :
    ∀ (fuel rem i0 : Nat) (js : List Nat) (i o : Int), rem ≤ fuel → i0 < s0 →
      (loop_plain s0 a0 b0 ms ss inS outS fuel rem i0 js i o).length = rem := by
  intro fuel
  induction fuel with
  | zero =>
    intro rem i0 js i o hf hi0
    have : rem = 0 := by omega
    subst this; rfl
  | succ fuel IH =>
    intro rem i0 js i o hf hi0
    by_cases hrem : rem = 0
    · subst hrem; simp [loop_plain]
    · simp only [loop_plain, if_neg hrem, List.length_append, List.length_map,
        List.length_range']
      rw [IH (rem - (min s0 (i0 + rem) - i0)) 0 _ _ _ (by omega) hs0]
      have h1 : min s0 (i0 + rem) ≤ i0 + rem := Nat.min_le_right _ _
      have h2 : i0 ≤ min s0 (i0 + rem) :=
        le_min (Nat.le_of_lt hi0) (Nat.le_add_right _ _)
      omega

theorem fill_slice_length (m0 : Bool) (ms : List Bool) (s0 : Nat) (ss : List Nat)
    (a0 : Int) (inS : List Int) (b0 : Int) (outS : List Int) (b e : Nat)
    (hs0 : 0 < s0) :
    (fft_fill_with_conjugate_symmetry_slice b e (m0 :: ms) (s0 :: ss)
        (a0 :: inS) (b0 :: outS)).length = e - b := by
  have hi0lt : b % s0 < s0 := Nat.mod_lt _ hs0
  simp only [fft_fill_with_conjugate_symmetry_slice]
  by_cases hb : 0 < b
  · rw [if_pos hb]
    cases m0 with
    | false =>
      exact loop_plain_length s0 a0 b0 ms ss inS outS hs0 _ _ _ _ _ _
        (Nat.le_refl _) hi0lt
    | true =>
      rw [if_pos rfl]
      by_cases hi0 : 0 < b % s0
      · rw [if_pos hi0]
        simp only [List.length_append, List.length_map, List.length_range']
        rw [loop_mirrored_length s0 a0 b0 ms ss inS outS hs0 _ _ _ _ _
          (Nat.le_refl _)]
        have h1 : min s0 (b % s0 + (e - b)) ≤ b % s0 + (e - b) :=
          Nat.min_le_right _ _
        have h2 : b % s0 ≤ min s0 (b % s0 + (e - b)) :=
          le_min (Nat.le_of_lt hi0lt) (Nat.le_add_right _ _)
        omega
      · rw [if_neg hi0]
        exact loop_mirrored_length s0 a0 b0 ms ss inS outS hs0 _ _ _ _ _
          (Nat.le_refl _)
  · rw [if_neg hb]
    cases m0 with
    | false =>
      exact loop_plain_length s0 a0 b0 ms ss inS outS hs0 _ _ _ _ _ _
        (Nat.le_refl _) hs0
    | true =>
      rw [if_pos rfl, if_neg (by omega : ¬ (0:Nat) < 0)]
      exact loop_mirrored_length s0 a0 b0 ms ss inS outS hs0 _ _ _ _ _
        (Nat.le_refl _)

theorem applyWrites_cons (inBuf : Int → Cplx) (w : Int × Int)
    (ws : List (Int × Int)) (outBuf : Int → Cplx) :
    applyWrites inBuf (w :: ws) outBuf
      = applyWrites inBuf ws (updOut outBuf w.1 (Cplx.conj (inBuf w.2))) := rfl

theorem applyWrites_append (inBuf : Int → Cplx) (w1 w2 : List (Int × Int))
    (outBuf : Int → Cplx) :
    applyWrites inBuf (w1 ++ w2) outBuf
      = applyWrites inBuf w2 (applyWrites inBuf w1 outBuf) := by
  simp [applyWrites, List.foldl_append]

theorem applyWrites_mem : ∀ (ws : List (Int × Int)) (inBuf outBuf : Int → Cplx)
    (o : Int), applyWrites inBuf ws outBuf o = outBuf o ∨
      ∃ j, (o, j) ∈ ws ∧ applyWrites inBuf ws outBuf o = Cplx.conj (inBuf j)
  | [], inBuf, outBuf, o => Or.inl rfl
  | w :: ws, inBuf, outBuf, o => by
    rw [applyWrites_cons]
    rcases applyWrites_mem ws inBuf
        (updOut outBuf w.1 (Cplx.conj (inBuf w.2))) o with h | ⟨j, hj, hv⟩
    · by_cases ho : o = w.1
      · refine Or.inr ⟨w.2, ?_, ?_⟩
        · have heq : (o, w.2) = w := Prod.ext ho rfl
          rw [heq]
          exact List.mem_cons_self w ws
        · rw [h, updOut, if_pos ho]
      · refine Or.inl ?_
        rw [h, updOut, if_neg ho]
    · exact Or.inr ⟨j, List.mem_cons_of_mem w hj, hv⟩

theorem out_offset_all_false : ∀ (cs : List Nat) (ms : List Bool) (ss : List Nat)
    (outS : List Int), (∀ m ∈ ms, m = false) → ms.length = cs.length →
      ss.length = cs.length → outS.length = cs.length →
      out_offset ms ss outS cs = in_offset outS cs
  | [], ms, ss, outS, _, hm, hs, ho => by
    have h1 : ms = [] := List.eq_nil_of_length_eq_zero (by simpa using hm)
    have h2 : ss = [] := List.eq_nil_of_length_eq_zero (by simpa using hs)
    have h3 : outS = [] := List.eq_nil_of_length_eq_zero (by simpa using ho)
    subst h1; subst h2; subst h3; rfl
  | c :: cs, [], ss, outS, _, hm, _, _ => by simp at hm
  | c :: cs, m :: ms, [], outS, _, _, hs, _ => by simp at hs
  | c :: cs, m :: ms, s :: ss, [], _, _, _, ho => by simp at ho
  | c :: cs, m :: ms, s :: ss, bo :: outS, hall, hm, hs, ho => by
    have hmf : m = false := hall m (List.mem_cons_self m ms)
    subst hmf
    rw [out_offset, in_offset, mirror_coord_not_mirrored,
      out_offset_all_false cs ms ss outS
        (fun x hx => hall x (List.mem_cons_of_mem _ hx))
        (by simpa using hm) (by simpa using hs) (by simpa using ho)]

theorem loop_one_eq (a0 b0 : Int) (ms : List Bool) (ss : List Nat)
    (inS outS : List Int) : ∀ (fuel rem : Nat) (js : List Nat) (i o : Int),
      loop_mirrored 1 a0 b0 ms ss inS outS fuel rem js i o
        = loop_plain 1 a0 b0 ms ss inS outS fuel rem 0 js i o
  | 0, rem, js, i, o => rfl
  | fuel + 1, rem, js, i, o => by
    by_cases hrem : rem = 0
    · subst hrem; simp [loop_mirrored, loop_plain]
    · have hone : min 1 rem = 1 := by omega
      have hone2 : min 1 (0 + rem) = 1 := by omega
      simp only [loop_mirrored, loop_plain, if_neg hrem, hone, hone2,
        Nat.sub_self, List.range'_zero, List.range'_one, List.map_cons,
        List.map_nil, Nat.cast_zero, zero_mul, add_zero, Nat.sub_zero]
      rw [loop_one_eq a0 b0 ms ss inS outS fuel (rem - 1) _ _ _]

theorem fill_slice_one_mirrored (b e : Nat) (ms : List Bool) (ss : List Nat)
    (a0 b0 : Int) (inS outS : List Int) :
    fft_fill_with_conjugate_symmetry_slice b e (true :: ms) (1 :: ss)
        (a0 :: inS) (b0 :: outS)
      = fft_fill_with_conjugate_symmetry_slice b e (false :: ms) (1 :: ss)
          (a0 :: inS) (b0 :: outS) := by
  simp only [fft_fill_with_conjugate_symmetry_slice, Nat.mod_one]
  by_cases hb : 0 < b <;>
    simp [hb, loop_one_eq a0 b0 ms ss inS outS]

theorem runPartition_eq (inBuf : Int → Cplx) (m0 : Bool) (ms : List Bool)
    (s0 : Nat) (ss : List Nat) (a0 : Int) (inS : List Int) (b0 : Int)
    (outS : List Int) (hm : ms.length = ss.length) (hi : inS.length = ss.length)
    (ho : outS.length = ss.length) (hs0 : 0 < s0)
    (hmir : ∀ p ∈ ms.zip ss, p.1 = true → 2 ≤ p.2) :
    ∀ (parts : List Nat) (start : Nat) (buf : Int → Cplx),
      start + parts.sum ≤ s0 * ss.prod →
      runPartition inBuf (m0 :: ms) (s0 :: ss) (a0 :: inS) (b0 :: outS)
          parts start buf
        = applyWrites inBuf
            (fft_fill_with_conjugate_symmetry_slice start (start + parts.sum)
              (m0 :: ms) (s0 :: ss) (a0 :: inS) (b0 :: outS)) buf := by
  intro parts
  induction parts with
  | nil =>
    intro start buf hle
    simp only [runPartition, List.sum_nil, Nat.add_zero]
    rw [fill_slice_eq m0 ms s0 ss a0 inS b0 outS start start hm hi ho hs0 hmir
      (Nat.le_refl _) (by omega)]
    simp [applyWrites]
  | cons p ps IH =>
    intro start buf hle
    have hsum : (p :: ps).sum = p + ps.sum := List.sum_cons
    simp only [runPartition, hsum]
    rw [IH (start + p) _ (by omega)]
    rw [fill_slice_eq m0 ms s0 ss a0 inS b0 outS start (start + p) hm hi ho hs0
      hmir (by omega) (by omega)]
    rw [fill_slice_eq m0 ms s0 ss a0 inS b0 outS (start + p) (start + p + ps.sum)
      hm hi ho hs0 hmir (by omega) (by omega)]
    rw [fill_slice_eq m0 ms s0 ss a0 inS b0 outS start (start + (p + ps.sum))
      hm hi ho hs0 hmir (by omega) (by omega)]
    rw [← applyWrites_append, ← List.map_append]
    rw [show start + p - start = p by omega,
      show start + p + ps.sum - (start + p) = ps.sum by omega,
      show start + (p + ps.sum) - start = p + ps.sum by omega]
    have happ := List.range'_append start p ps.sum 1
    simp only [one_mul] at happ
    rw [Nat.add_comm ps.sum p] at happ
    rw [← happ]

/-!
Part 4: claim theorems.
-/

/-- A short-circuiting or-accumulating loop is the any-fold of its body. -/
theorem foldl_or_any (p : Nat → Bool) :
    ∀ (l : List Nat) (binit : Bool),
      l.foldl (fun acc i => acc || p i) binit = (binit || l.any p)
  | [], binit => by simp
  | x :: l, binit => by
    simp only [List.foldl_cons, List.any_cons, foldl_or_any p l (binit || p x),
      Bool.or_assoc]

/-- The unravelled coordinate list has one entry per dimension. -/
theorem unravel_length : ∀ (ss : List Nat) (k : Nat),
    (unravel ss k).length = ss.length
  | [], _ => rfl
  | s :: ss, k => by simp [unravel, unravel_length ss (k / s)]


/-- C1 (amended).  Over any sub-range of the half index space, the fill
routine writes exactly one element per linear index: the complex conjugate of
the half-buffer value at the unravelled coordinate, placed at the output
offset in which every mirrored dimension maps coordinate `i` in `[1, size_d)`
to `size_d - i` and coordinate 0 to itself (`write_for` / `mirror_coord`),
provided every mirrored dimension other than dimension 0 has extent at least
2.  In particular the 1-D half spectrum `(3,)` holding `2+0i, 1+1i, 0+1i`
expands to the full shape `(4,)` result `2+0i, 1+1i, 0+1i, 1-1i`, with index 3
the conjugate of index 1. -/
theorem c1_theorem :
    (∀ (m0 : Bool) (ms : List Bool) (s0 : Nat) (ss : List Nat) (a0 : Int)
        (inS : List Int) (b0 : Int) (outS : List Int) (b e : Nat),
      ms.length = ss.length → inS.length = ss.length → outS.length = ss.length →
      0 < s0 → (∀ p ∈ ms.zip ss, p.1 = true → 2 ≤ p.2) → b ≤ e →
      e ≤ s0 * ss.prod →
      fft_fill_with_conjugate_symmetry_slice b e (m0 :: ms) (s0 :: ss)
          (a0 :: inS) (b0 :: outS)
        = (List.range' b (e - b)).map
            (write_for (m0 :: ms) (s0 :: ss) (a0 :: inS) (b0 :: outS)))
    ∧ expand_half_spectrum_1d 4 [⟨2, 0⟩, ⟨1, 1⟩, ⟨0, 1⟩]
        = [⟨2, 0⟩, ⟨1, 1⟩, ⟨0, 1⟩, ⟨1, -1⟩]
    ∧ (expand_half_spectrum_1d 4 [⟨2, 0⟩, ⟨1, 1⟩, ⟨0, 1⟩]).getD 3 ⟨0, 0⟩
        = Cplx.conj (([⟨2, 0⟩, ⟨1, 1⟩, ⟨0, 1⟩] : List Cplx).getD 1 ⟨0, 0⟩) :=
  ⟨fill_slice_eq, by decide, by decide⟩

/-- Witness for C1: the characterisation evaluated on the 1-D mirrored
dimension of extent 4 over the full range. -/
theorem c1_witness :
    fft_fill_with_conjugate_symmetry_slice 0 4 [true] [4] [1] [1]
      = (List.range' 0 4).map (write_for [true] [4] [1] [1]) :=
  c1_theorem.1 true [] 4 [] 1 [] 1 [] 0 4 rfl rfl rfl (by decide)
    (fun p hp => absurd hp (List.not_mem_nil p)) (by decide) (by decide)

/-- Counterexample to C1 as stated: with half sizes `[3, 1, 2]` and
`mirror_dims = {0, 1}` (the extent-1 dimension 1 flagged mirrored), the value
for coordinate `(1, 0, 1)` is not written to the full-buffer position
`size_0 - 1` at the same remaining coordinates: the advance over the extent-1
mirrored dimension displaces the output pointer. -/
theorem c1_counterexample :
    applyWrites exIn
        (fft_fill_with_conjugate_symmetry_slice 0 6 [true, true, false]
          [3, 1, 2] [1, 3, 3] [1, 5, 10])
        exOut
        (out_offset [true, true, false] [3, 1, 2] [1, 5, 10] [1, 0, 1])
      ≠ Cplx.conj (exIn (in_offset [1, 3, 3] [1, 0, 1])) := by decide

/-- C2 (amended).  Filling the whole range `[0, numel)` in one slice call
equals filling any exact partition of it into contiguous sub-ranges, one slice
call each, on identical input - provided every mirrored dimension other than
dimension 0 has extent at least 2. -/
theorem c2_theorem (inBuf outBuf : Int → Cplx) (m0 : Bool) (ms : List Bool)
    (s0 : Nat) (ss : List Nat) (a0 : Int) (inS : List Int) (b0 : Int)
    (outS : List Int) (parts : List Nat)
    (hm : ms.length = ss.length) (hi : inS.length = ss.length)
    (ho : outS.length = ss.length) (hs0 : 0 < s0)
    (hmir : ∀ p ∈ ms.zip ss, p.1 = true → 2 ≤ p.2)
    (hsum : parts.sum = s0 * ss.prod) :
    runPartition inBuf (m0 :: ms) (s0 :: ss) (a0 :: inS) (b0 :: outS)
        parts 0 outBuf
      = applyWrites inBuf
          (fft_fill_with_conjugate_symmetry_slice 0 (s0 * ss.prod)
            (m0 :: ms) (s0 :: ss) (a0 :: inS) (b0 :: outS)) outBuf := by
  have h := runPartition_eq inBuf m0 ms s0 ss a0 inS b0 outS hm hi ho hs0 hmir
    parts 0 outBuf (by omega)
  rw [h, Nat.zero_add, hsum]

/-- Witness for C2: a two-piece partition of a 1-D unmirrored fill equals
the single-call fill. -/
theorem c2_witness :
    runPartition exIn [false] [2] [1] [1] [1, 1] 0 exOut
      = applyWrites exIn
          (fft_fill_with_conjugate_symmetry_slice 0 (2 * ([] : List Nat).prod)
            [false] [2] [1] [1]) exOut :=
  c2_theorem exIn exOut false [] 2 [] 1 [] 1 [] [1, 1] rfl rfl rfl (by decide)
    (fun p hp => absurd hp (List.not_mem_nil p)) (by decide)

/-- Counterexample to C2 as stated: with an extent-1 outer dimension flagged
mirrored, the single whole-range call and the partition `[0,2) ++ [2,4)`
disagree at output offset 2 (the partitioned second slice reconstructs the
correct offsets via `init_index` while the whole-range call reaches the same
rows through the drifting `advance_index`). -/
theorem c2_counterexample :
    runPartition exIn [false, true, false] [2, 1, 2] [1, 100, 2] [1, 10, 2]
        [2, 2] 0 exOut 2
      ≠ applyWrites exIn
          (fft_fill_with_conjugate_symmetry_slice 0 4 [false, true, false]
            [2, 1, 2] [1, 100, 2] [1, 10, 2]) exOut 2 := by decide

/-- C4 (amended).  For every fill input in which each mirrored dimension
other than dimension 0 has extent at least 2 - mirrored and unmirrored
dimensions arbitrarily mixed - every write goes to the output offset built by
`mirror_coord` from the input coordinate, and `mirror_coord` is the identity
on every dimension excluded from `mirror_dims`: excluded dimensions are
copied non-reflected at matching coordinates.  The value stored is the
complex conjugate of the value read (see the counterexample: the copy is
conjugated, not unchanged; and without the extent proviso even the
matching-coordinates part fails). -/
theorem c4_theorem (m0 : Bool) (ms : List Bool) (s0 : Nat) (ss : List Nat)
    (a0 : Int) (inS : List Int) (b0 : Int) (outS : List Int) (b e : Nat)
    (hm : ms.length = ss.length) (hi : inS.length = ss.length)
    (ho : outS.length = ss.length) (hs0 : 0 < s0)
    (hmir : ∀ p ∈ ms.zip ss, p.1 = true → 2 ≤ p.2)
    (hbe : b ≤ e) (he : e ≤ s0 * ss.prod) :
    fft_fill_with_conjugate_symmetry_slice b e (m0 :: ms) (s0 :: ss)
        (a0 :: inS) (b0 :: outS)
      = (List.range' b (e - b)).map (fun k =>
          (out_offset (m0 :: ms) (s0 :: ss) (b0 :: outS) (unravel (s0 :: ss) k),
           in_offset (a0 :: inS) (unravel (s0 :: ss) k)))
    ∧ (∀ (s c : Nat), mirror_coord false s c = (c : Int)) :=
  ⟨(fill_slice_eq m0 ms s0 ss a0 inS b0 outS b e hm hi ho hs0 hmir hbe
      he).trans (List.map_congr_left fun _ _ => rfl),
   mirror_coord_not_mirrored⟩

/-- Witness for C4: a 2-D fill with dimension 0 mirrored (extent 3) and
dimension 1 excluded, over the full range. -/
theorem c4_witness :
    fft_fill_with_conjugate_symmetry_slice 0 6 [true, false] [3, 2] [1, 3]
        [1, 5]
      = (List.range' 0 6).map (fun k =>
          (out_offset [true, false] [3, 2] [1, 5] (unravel [3, 2] k),
           in_offset [1, 3] (unravel [3, 2] k)))
    ∧ (∀ (s c : Nat), mirror_coord false s c = (c : Int)) :=
  c4_theorem true [false] 3 [2] 1 [3] 1 [5] 0 6 rfl rfl rfl (by decide)
    (by
      intro p hp hpt
      have hp' : p = (false, 2) := by simpa using hp
      rw [hp'] at hpt
      cases hpt)
    (by decide) (by decide)

/-- Counterexample to C4 as stated: (i) a dimension excluded from
`mirror_dims` is not copied unchanged - the stored value is conjugated, so an
element with nonzero imaginary part differs from its copy; (ii) without the
extent proviso the matching-coordinates part also fails: with sizes
`[2, 1, 2]` and only the extent-1 dimension 1 mirrored, the value for
coordinate `(0, 0, 1)` of the excluded dimensions 0 and 2 is not stored at
the matching-coordinate offset. -/
theorem c4_counterexample :
    applyWrites exIn
        (fft_fill_with_conjugate_symmetry_slice 0 1 [false] [1] [1] [1])
        exOut 0
      ≠ exIn 0
    ∧ applyWrites exIn
        (fft_fill_with_conjugate_symmetry_slice 0 4 [false, true, false]
          [2, 1, 2] [1, 100, 2] [1, 10, 2])
        exOut
        (out_offset [false, true, false] [2, 1, 2] [1, 10, 2] [0, 0, 1])
      ≠ Cplx.conj (exIn (in_offset [1, 100, 2] [0, 0, 1])) := by decide

/-- C9 (amended).  For dimension 0 (the innermost), an extent-1 dimension
flagged mirrored is a true no-op: the fill equals the run with the flag
cleared, and exactly `end - begin` elements are written (no double write).
For outer dimensions of extent 1 the flag is not a no-op (see the
counterexample). -/
theorem c9_theorem (b e : Nat) (ms : List Bool) (ss : List Nat) (a0 b0 : Int)
    (inS outS : List Int) :
    fft_fill_with_conjugate_symmetry_slice b e (true :: ms) (1 :: ss)
        (a0 :: inS) (b0 :: outS)
      = fft_fill_with_conjugate_symmetry_slice b e (false :: ms) (1 :: ss)
          (a0 :: inS) (b0 :: outS)
    ∧ (fft_fill_with_conjugate_symmetry_slice b e (true :: ms) (1 :: ss)
        (a0 :: inS) (b0 :: outS)).length = e - b :=
  ⟨fill_slice_one_mirrored b e ms ss a0 b0 inS outS,
   fill_slice_length true ms 1 ss a0 inS b0 outS b e Nat.one_pos⟩

/-- Counterexample to C9 as stated for outer dimensions: flagging the
extent-1 dimension 1 of `[2, 1, 2]` as mirrored changes the write list
relative to the unflagged run, because the rollover branch of `advance_index`
subtracts one output stride the dimension never contributed. -/
theorem c9_counterexample :
    fft_fill_with_conjugate_symmetry_slice 0 4 [false, true, false] [2, 1, 2]
        [1, 100, 2] [1, 7, 2]
      ≠ fft_fill_with_conjugate_symmetry_slice 0 4 [false, false, false]
          [2, 1, 2] [1, 100, 2] [1, 7, 2] := by decide

/-- C10.  For every range `[b, e)` processed (with a positive innermost
extent), the slice routine performs exactly `e - b` writes, and every element
of the resulting buffer is either untouched or the complex conjugate of
exactly one input element - the conjugate is applied on every write,
including coordinate 0 of mirrored dimensions and all elements of unmirrored
dimensions. -/
theorem c10_theorem (m0 : Bool) (ms : List Bool) (s0 : Nat) (ss : List Nat)
    (a0 : Int) (inS : List Int) (b0 : Int) (outS : List Int) (b e : Nat)
    (inBuf outBuf : Int → Cplx) (o : Int) (hs0 : 0 < s0) :
    (fft_fill_with_conjugate_symmetry_slice b e (m0 :: ms) (s0 :: ss)
        (a0 :: inS) (b0 :: outS)).length = e - b
    ∧ (applyWrites inBuf
          (fft_fill_with_conjugate_symmetry_slice b e (m0 :: ms) (s0 :: ss)
            (a0 :: inS) (b0 :: outS)) outBuf o = outBuf o
        ∨ ∃ j, (o, j) ∈ fft_fill_with_conjugate_symmetry_slice b e (m0 :: ms)
              (s0 :: ss) (a0 :: inS) (b0 :: outS)
            ∧ applyWrites inBuf
                (fft_fill_with_conjugate_symmetry_slice b e (m0 :: ms)
                  (s0 :: ss) (a0 :: inS) (b0 :: outS)) outBuf o
              = Cplx.conj (inBuf j)) :=
  ⟨fill_slice_length m0 ms s0 ss a0 inS b0 outS b e hs0,
   applyWrites_mem _ _ _ _⟩

/-- Witness for C10 on the 1-D mirrored extent-4 fill, observed at output
offset 3. -/
theorem c10_witness :
    (fft_fill_with_conjugate_symmetry_slice 0 4 [true] [4] [1] [1]).length
        = 4 - 0
    ∧ (applyWrites exIn
          (fft_fill_with_conjugate_symmetry_slice 0 4 [true] [4] [1] [1])
          exOut 3 = exOut 3
        ∨ ∃ j, (3, j) ∈ fft_fill_with_conjugate_symmetry_slice 0 4 [true] [4]
              [1] [1]
            ∧ applyWrites exIn
                (fft_fill_with_conjugate_symmetry_slice 0 4 [true] [4] [1] [1])
                exOut 3 = Cplx.conj (exIn j)) :=
  c10_theorem true [] 4 [] 1 [] 1 [] 0 4 exIn exOut 3 (by decide)

/-- C5 (amended).  The complex-alignment copy fires iff the last dimension
stride is not 1 or the stride of some dimension `i` in `[0, signal_ndim]` -
the batch dimension 0 included - is odd. -/
theorem c5_theorem (signal_ndim : Nat) (strides : List Nat) :
    mkl_need_contiguous signal_ndim strides = true
      ↔ (strides.getLastD 0 ≠ 1
         ∨ ∃ i < signal_ndim + 1, strides.getD i 0 % 2 = 1) := by
  unfold mkl_need_contiguous
  rw [foldl_or_any]
  simp only [Bool.or_eq_true, decide_eq_true_eq, List.any_eq_true,
    List.mem_range]
  constructor
  · rintro (h | ⟨i, hi, hp⟩)
    · exact Or.inl h
    · exact Or.inr ⟨i, hi, by omega⟩
  · rintro (h | ⟨i, hi, hp⟩)
    · exact Or.inl h
    · exact Or.inr ⟨i, hi, by omega⟩

/-- Counterexample to C5 as stated: strides `[3, 4, 1]` with one transformed
dimension force the copy (batch stride 3 is odd) although the last stride is
1 and the only transformed dimension stride (4) is even. -/
theorem c5_counterexample :
    mkl_need_contiguous 1 [3, 4, 1] = true
    ∧ ¬ (([3, 4, 1] : List Nat).getLastD 0 ≠ 1
         ∨ ∃ i < 2, 1 ≤ i ∧ ([3, 4, 1] : List Nat).getD i 0 % 2 = 1) := by
  decide

/-- C6 (amended).  A request whose element type is neither single nor double
precision always fails with an empty engine-call trace (no descriptor is
created or configured), and the error is the unsupported-type error whenever
the narrow-engine overflow preflight does not already reject the request
(when it does, the size-exceeded error preempts; see the counterexample). -/
theorem c6_theorem (narrow : Bool) (maxL : Nat) (t : FftArgs)
    (hft : t.scalar_type ≠ ScalarType.float)
    (hdt : t.scalar_type ≠ ScalarType.double) :
    (fft_mkl narrow maxL t).calls = []
    ∧ ∃ er, (fft_mkl narrow maxL t).result = Except.error er
        ∧ ((narrow = true →
              (mkl_preflight maxL t.complex_input t.signal_ndim t.input_sizes
                (fft_mkl_input_strides t) t.output_sizes).isOk = true) →
            er = MklError.unsupportedType) := by
  have hso : t.scalar_type = ScalarType.other := by
    cases h : t.scalar_type
    · exact absurd h hft
    · exact absurd h hdt
    · rfl
  cases narrow with
  | false =>
    refine ⟨?_, MklError.unsupportedType, ?_, fun _ => rfl⟩
    · simp [fft_mkl, mkl_prec, hso]
    · simp [fft_mkl, mkl_prec, hso]
  | true =>
    cases hpf : mkl_preflight maxL t.complex_input t.signal_ndim t.input_sizes
        (fft_mkl_input_strides t) t.output_sizes with
    | error er =>
      refine ⟨?_, er, ?_, ?_⟩
      · simp [fft_mkl, hpf]
      · simp [fft_mkl, hpf]
      · intro hok
        exfalso
        have hisok := hok rfl
        simp [Except.isOk, Except.toBool] at hisok
    | ok nc =>
      refine ⟨?_, MklError.unsupportedType, ?_, fun _ => rfl⟩
      · simp [fft_mkl, hpf, mkl_prec, hso]
      · simp [fft_mkl, hpf, mkl_prec, hso]

/-- Witness for C6: an unsupported-type request on a non-narrow engine
yields an empty trace and the unsupported-type error. -/
theorem c6_witness :
    (fft_mkl false 100 c6badArgs).calls = []
    ∧ ∃ er, (fft_mkl false 100 c6badArgs).result = Except.error er
        ∧ ((false = true →
              (mkl_preflight 100 c6badArgs.complex_input c6badArgs.signal_ndim
                c6badArgs.input_sizes (fft_mkl_input_strides c6badArgs)
                c6badArgs.output_sizes).isOk = true) →
            er = MklError.unsupportedType) :=
  c6_theorem false 100 c6badArgs (by decide) (by decide)

/-- Counterexample to C6 as stated: an unsupported-type request whose extent
101 exceeds the narrow-engine limit 100 fails with the size-exceeded error,
not the unsupported-type error. -/
theorem c6_counterexample :
    (fft_mkl true 100 c6badArgs).result = Except.error MklError.sizeExceeded
    ∧ MklError.sizeExceeded ≠ MklError.unsupportedType :=
  ⟨rfl, by decide⟩

/-- C3: the preflight marks the contiguous-copy rescue (`ok true`) for a
non-contiguous input whose stride 128 exceeds the limit 100 while the
accumulated element counts stay in range, and the run succeeds - but the flag
is discarded: no layout copy is performed and the out-of-range stride 128 is
configured on the engine, contradicting the claimed implicit copy. -/
theorem c3_theorem :
    mkl_preflight 100 false 1 [1, 4] [512, 128] [1, 3, 2] = Except.ok true
    ∧ (fft_mkl true 100 c3Args).result
        = Except.ok { did_layout_copy := false, mkl_istrides := [0, 128],
                      mkl_ostrides := [0, 1], fill_dims := none }
    ∧ 100 < 128 :=
  ⟨rfl, rfl, by decide⟩

/-- C7.  On every successful run, the engine-call trace contains exactly one
scale-setting call when normalization is requested - carrying
`1/sqrt(signal numel)` for root-N and `1/signal numel` for full
normalization, in the selected precision, on the backward-scale parameter for
an inverse transform and the forward-scale parameter otherwise - and no
scale-setting call when the mode is none. -/
theorem c7_theorem (narrow : Bool) (maxL : Nat) (t : FftArgs) (plan : MklPlan)
    (hok : (fft_mkl narrow maxL t).result = Except.ok plan) :
    ∃ prec, mkl_prec t.scalar_type = Except.ok prec
      ∧ (fft_mkl narrow maxL t).calls.filter is_scale_call
        = (match t.normalization with
           | NormMode.none => []
           | NormMode.by_root_n =>
             [(if t.inverse then EngineCall.setBackwardScale
               else EngineCall.setForwardScale) prec
                (ScaleExpr.invSqrt t.checked_signal_sizes.prod)]
           | NormMode.by_n =>
             [(if t.inverse then EngineCall.setBackwardScale
               else EngineCall.setForwardScale) prec
                (ScaleExpr.invN t.checked_signal_sizes.prod)]) := by
  simp only [fft_mkl] at hok ⊢
  cases hpf : (if narrow = true then
      mkl_preflight maxL t.complex_input t.signal_ndim t.input_sizes
        (fft_mkl_input_strides t) t.output_sizes
    else Except.ok false) with
  | error er =>
    rw [hpf] at hok
    simp at hok
  | ok nc =>
    rw [hpf] at hok
    cases hprec : mkl_prec t.scalar_type with
    | error er =>
      rw [hprec] at hok
      simp at hok
    | ok prec =>
      rw [hprec] at hok
      refine ⟨prec, rfl, ?_⟩
      cases hnorm : t.normalization <;> cases hinv : t.inverse <;>
        cases hci : t.complex_input <;> cases hco : t.complex_output <;>
          simp [hnorm, hinv, hci, hco, is_scale_call, List.filter_append,
            List.filter]

/-- Witness for C7: an inverse root-N-normalized run sets exactly one
backward scale of `1/sqrt(4)`. -/
theorem c7_witness :
    ∃ prec, mkl_prec c7Args.scalar_type = Except.ok prec
      ∧ (fft_mkl false 100 c7Args).calls.filter is_scale_call
        = [EngineCall.setBackwardScale prec
            (ScaleExpr.invSqrt c7Args.checked_signal_sizes.prod)] :=
  c7_theorem false 100 c7Args
    { did_layout_copy := false, mkl_istrides := [0, 128],
      mkl_ostrides := [0, 1], fill_dims := none } rfl

/-- C8.  On every successful run, the conjugate-symmetry fill is invoked iff
the input is real, the output is complex and onesided output was not
requested, and then over exactly the transformed dimensions `1 ..
signal_ndim` (batch dimension 0 excluded). -/
theorem c8_theorem (narrow : Bool) (maxL : Nat) (t : FftArgs) (plan : MklPlan)
    (hok : (fft_mkl narrow maxL t).result = Except.ok plan) :
    plan.fill_dims
      = (if t.complex_input = false ∧ t.complex_output = true
            ∧ t.onesided = false
         then some (List.range' 1 t.signal_ndim) else none) := by
  simp only [fft_mkl] at hok
  cases hpf : (if narrow = true then
      mkl_preflight maxL t.complex_input t.signal_ndim t.input_sizes
        (fft_mkl_input_strides t) t.output_sizes
    else Except.ok false) with
  | error er =>
    rw [hpf] at hok
    simp at hok
  | ok nc =>
    rw [hpf] at hok
    cases hprec : mkl_prec t.scalar_type with
    | error er =>
      rw [hprec] at hok
      simp at hok
    | ok prec =>
      rw [hprec] at hok
      simp only [Except.ok.injEq] at hok
      rw [← hok]

/-- Witness for C8: a real-to-complex non-onesided run fills over dimension
list `[1]`. -/
theorem c8_witness :
    ({ did_layout_copy := false, mkl_istrides := [0, 128],
       mkl_ostrides := [0, 1], fill_dims := some [1] } : MklPlan).fill_dims
      = (if c8Args.complex_input = false ∧ c8Args.complex_output = true
            ∧ c8Args.onesided = false
         then some (List.range' 1 c8Args.signal_ndim) else none) :=
  c8_theorem false 100 c8Args _ rfl
